import Mathlib

/-!
Verification of the transpoze-app conversion core (job store, scheduler
dispatch policy, ffmpeg progress parser, conversion runner) against its
natural-language specification.  The Rust sources are shallowly embedded:
strings are lists of characters, `f64`/`f32` values are rationals with
exact decimal semantics, `HashMap<String, ConversionJob>` is an
association list, and the async scheduler is a small-step transition
relation whose atomic actions correspond to the code between await
points.
-/

namespace Transpoze

/-- Strings are modelled as lists of characters. -/
abbrev Str := List Char

/-! ## Basic string operations (Rust `str` methods used by the parser) -/

/-- Accumulator-style worker for `splitOn`. -/
def splitOnAux (sep : Char) : Str → Str → List Str
  | [], acc => [acc.reverse]
  | c :: cs, acc =>
      if c = sep then acc.reverse :: splitOnAux sep cs []
      else splitOnAux sep cs (c :: acc)

/-- Models Rust `str::split(sep).collect::<Vec<_>>()`:
`"a:b"` gives `["a","b"]`, `""` gives `[""]`, `"::"` gives `["","",""]`. -/
def splitOn (s : Str) (sep : Char) : List Str := splitOnAux sep s []

/-- `startsWith s p` models Rust `s.starts_with(p)`. -/
def startsWith : Str → Str → Bool
  | _, [] => true
  | [], _ :: _ => false
  | c :: cs, p :: ps => c == p && startsWith cs ps

/-- Models Rust `str::find(pat)`: index of the first occurrence of the
substring `pat` in `s`, if any. -/
def findSub : Str → Str → Option Nat
  | [], pat => if pat = [] then some 0 else none
  | c :: cs, pat =>
      if startsWith (c :: cs) pat then some 0
      else (findSub cs pat).map (· + 1)

/-- Models Rust `str::contains(pat)`. -/
def containsSub (s pat : Str) : Bool := (findSub s pat).isSome

/-- Fuel-indexed worker for `trimStartMatches`; each iteration strips at
least one character, so fuel `s.length` is always enough. -/
def trimStartMatchesAux : Nat → Str → Str → Str
  | 0, s, _ => s
  | fuel + 1, s, pat =>
      if startsWith s pat && !pat.isEmpty then
        trimStartMatchesAux fuel (s.drop pat.length) pat
      else s

/-- Models Rust `str::trim_start_matches(pat)`: strips every leading
repetition of `pat`. -/
def trimStartMatches (s pat : Str) : Str :=
  trimStartMatchesAux s.length s pat

/-- Numeric value of a digit string, most significant first. -/
def digitsToNat (s : Str) : Nat :=
  s.foldl (fun acc c => acc * 10 + (c.toNat - '0'.toNat)) 0

/-- Body of the decimal grammar after the optional sign: digits, at most
one decimal point, at least one digit, nothing else. -/
def parseDecimalBody (neg : Bool) (r1 : Str) : Option (Bool × Str × Str) :=
  let intPart := r1.takeWhile Char.isDigit
  let r2 := r1.dropWhile Char.isDigit
  match r2 with
  | [] => if intPart.isEmpty then none else some (neg, intPart, [])
  | c :: r3 =>
      if c = '.' then
        let fracPart := r3.takeWhile Char.isDigit
        let r4 := r3.dropWhile Char.isDigit
        if r4.isEmpty && !(intPart.isEmpty && fracPart.isEmpty) then
          some (neg, intPart, fracPart)
        else none
      else none

/-- Raw shape of a parsed decimal literal: sign, integer digits,
fraction digits.  This is the syntactic part of Rust `f64::from_str`
restricted to its finite-decimal fragment (optional sign, digits with at
most one decimal point, at least one digit, consuming the whole string;
the exotic `inf`/`nan`/exponent forms never produced by the encoder are
omitted). -/
def parseDecimalRaw (s : Str) : Option (Bool × Str × Str) :=
  match s with
  | [] => parseDecimalBody false []
  | c :: r =>
      if c = '+' then parseDecimalBody false r
      else if c = '-' then parseDecimalBody true r
      else parseDecimalBody false (c :: r)

/-- Exact rational value of a parsed decimal literal. -/
def decimalValue (d : Bool × Str × Str) : ℚ :=
  (if d.1 then -1 else 1) *
    ((digitsToNat d.2.1 : ℚ) + (digitsToNat d.2.2 : ℚ) / (10 : ℚ) ^ d.2.2.length)

/-- Models Rust `f64::from_str` / `f32::from_str` on the decimal strings
the encoder emits, with exact rational semantics. -/
def parseDecimal (s : Str) : Option ℚ := (parseDecimalRaw s).map decimalValue

/-- Models Rust `u64::from_str` (optional `+` sign, digits only). -/
def parseNat (s : Str) : Option Nat :=
  let r :=
    match s with
    | [] => []
    | c :: rest => if c = '+' then rest else c :: rest
  if r.isEmpty then none
  else if r.all Char.isDigit then some (digitsToNat r) else none

/-! ## `ffmpeg_parser.rs` -/

/-- Embeds `parse_time_to_seconds` (ffmpeg_parser.rs:112-123): splits on
`':'`, requires exactly three components, parses each as a decimal and
returns `H*3600 + M*60 + S`. -/
def parse_time_to_seconds (time_str : Str) : Except Str ℚ :=
  match splitOn time_str ':' with
  | [p0, p1, p2] =>
      match parseDecimal p0 with
      | none => .error ("Invalid hours".toList)
      | some hours =>
        match parseDecimal p1 with
        | none => .error ("Invalid minutes".toList)
        | some minutes =>
          match parseDecimal p2 with
          | none => .error ("Invalid seconds".toList)
          | some seconds =>
            .ok (hours * 3600 + minutes * 60 + seconds)
  | _ => .error ("Invalid time format: ".toList ++ time_str)

/-- Embeds the `FFmpegProgress` struct (ffmpeg_parser.rs:2-10). -/
structure FFmpegProgress where
  time_seconds : ℚ
  bitrate : Option Str
  speed : Option ℚ
  fps : Option ℚ
  frame : Option Nat
  size : Option Str
deriving DecidableEq

/-- Embeds `parse_progress_line` (ffmpeg_parser.rs:14-94): requires a
`time=` substring, parses the time value up to whitespace, then extracts
the optional `frame=`, `fps=`, `size=`, `bitrate=`, `speed=` fields. -/
def parse_progress_line (line : Str) : Option FFmpegProgress :=
  if !(containsSub line ("time=".toList)) then none
  else
    match findSub line ("time=".toList) with
    | none => none
    | some time_pos =>
      let after_time := line.drop (time_pos + 5)
      let time_str := after_time.takeWhile (fun c => !c.isWhitespace)
      match parse_time_to_seconds time_str with
      | .error _ => none
      | .ok seconds =>
        let frame :=
          match findSub line ("frame=".toList) with
          | none => none
          | some p =>
              parseNat (((line.drop (p + 6)).dropWhile Char.isWhitespace).takeWhile
                (fun c => !c.isWhitespace))
        let fps :=
          match findSub line ("fps=".toList) with
          | none => none
          | some p =>
              parseDecimal (((line.drop (p + 4)).dropWhile Char.isWhitespace).takeWhile
                (fun c => !c.isWhitespace))
        let size :=
          match findSub line ("size=".toList) with
          | none => none
          | some p =>
              let size_str := ((line.drop (p + 5)).dropWhile Char.isWhitespace).takeWhile
                (fun c => !c.isWhitespace)
              if !size_str.isEmpty then some size_str else none
        let bitrate :=
          match findSub line ("bitrate=".toList) with
          | none => none
          | some p =>
              let bitrate_str := ((line.drop (p + 8)).dropWhile Char.isWhitespace).takeWhile
                (fun c => !c.isWhitespace)
              if !bitrate_str.isEmpty then some bitrate_str else none
        let speed :=
          match findSub line ("speed=".toList) with
          | none => none
          | some p =>
              parseDecimal (((line.drop (p + 6)).dropWhile Char.isWhitespace).takeWhile
                (fun c => !(c == 'x') && !c.isWhitespace))
        some ⟨seconds, bitrate, speed, fps, frame, size⟩

/-- Embeds `parse_progress_time` (ffmpeg_parser.rs:139-146): accepts only
lines starting with `out_time=` and parses the remainder with the time
grammar. -/
def parse_progress_time (line : Str) : Option ℚ :=
  if startsWith line ("out_time=".toList) then
    (parse_time_to_seconds (trimStartMatches line ("out_time=".toList))).toOption
  else none

/-! ## `ffmpeg.rs`: conversion runner -/

/-- Embeds the job lifecycle status enum (ffmpeg.rs:27-33). -/
inductive JobStatus where
  | Queued
  | Ready
  | Processing
  | Completed
  | Failed
deriving DecidableEq

/-- Embeds the `VideoPreset` struct (ffmpeg.rs:37-45). -/
structure VideoPreset where
  name : Str
  description : Str
  video_codec : Str
  audio_codec : Str
  bitrate : Option Str
  crf : Option Nat
  scale : Option Str
deriving DecidableEq

/-- Embeds the `ConversionJob` struct (ffmpeg.rs:12-23); `f32`/`f64`
fields become rationals. -/
structure ConversionJob where
  id : Str
  input_path : Str
  output_path : Str
  preset : VideoPreset
  status : JobStatus
  progress : ℚ
  duration : Option ℚ
  error : Option Str
  status_message : Option Str
  thumbnail_path : Option Str
deriving DecidableEq

/-- Embeds the percent computation of `convert_video` (ffmpeg.rs:267-271
and 292-296 and 301-305): `(current_time / duration * 100).min(100)` when
`duration > 0`, else `0`. -/
def computeProgress (duration : ℚ) (current_time : ℚ) : ℚ :=
  if 0 < duration then min (current_time / duration * 100) 100 else 0

/-- Embeds `job.duration.unwrap_or(0.0)` (ffmpeg.rs:255). -/
def effectiveDuration (d : Option ℚ) : ℚ := d.getD 0

/-- One line read by the `tokio::select!` loop of `convert_video`, tagged
with the stream it came from. -/
inductive StreamLine where
  | stdout (l : Str)
  | stderr (l : Str)
deriving DecidableEq

/-- Embeds the diagnostic-retention test of `convert_video`
(ffmpeg.rs:285): the line is kept when it contains `"Error"`, `"error"`
or `"Invalid"` as a (case-sensitive) substring. -/
def stderrRetains (line : Str) : Bool :=
  containsSub line ("Error".toList) || containsSub line ("error".toList) ||
    containsSub line ("Invalid".toList)

/-- Observable state of one `convert_video` run: the retained diagnostic
candidate (`last_error_line`, ffmpeg.rs:253) and the percents passed to
the progress callback, in order of emission. -/
structure RunState where
  lastErrorLine : Str
  emitted : List ℚ
deriving DecidableEq

/-- Embeds one iteration of the stream-draining loop of `convert_video`
(ffmpeg.rs:259-315): stdout lines go through `parse_progress_line` only;
stderr lines first update the diagnostic candidate, then try
`parse_progress_line` and fall back to `parse_progress_time`. -/
def processLine (duration : ℚ) (st : RunState) : StreamLine → RunState
  | .stdout l =>
      match parse_progress_line l with
      | some info => { st with emitted := st.emitted ++ [computeProgress duration info.time_seconds] }
      | none => st
  | .stderr l =>
      let st1 := if stderrRetains l then { st with lastErrorLine := l } else st
      match parse_progress_line l with
      | some info => { st1 with emitted := st1.emitted ++ [computeProgress duration info.time_seconds] }
      | none =>
        match parse_progress_time l with
        | some current_time =>
            { st1 with emitted := st1.emitted ++ [computeProgress duration current_time] }
        | none => st1

/-- Runs the stream-draining loop of `convert_video` over one
interleaving of the two line streams. -/
def runStreams (duration : ℚ) (events : List StreamLine) : RunState :=
  events.foldl (processLine duration) ⟨[], []⟩

/-! ## `state.rs`: job store

The `HashMap<String, ConversionJob>` behind `Arc<Mutex<...>>` is embedded
as an association list (`lookupJob`/`insertJob`/`modifyJob`/`removeKey`
give the map operations the code uses); the `VecDeque<String>` order
queue is a list of ids. -/

/-- Models `HashMap::get`. -/
def lookupJob : List (Str × ConversionJob) → Str → Option ConversionJob
  | [], _ => none
  | (k, v) :: rest, id => if k = id then some v else lookupJob rest id

/-- Models `HashMap::insert`: replaces the value when the key is present,
otherwise adds the entry. -/
def insertJob : List (Str × ConversionJob) → Str → ConversionJob → List (Str × ConversionJob)
  | [], id, j => [(id, j)]
  | (k, v) :: rest, id, j =>
      if k = id then (id, j) :: rest else (k, v) :: insertJob rest id j

/-- Models `HashMap::get_mut` followed by a field write: maps `f` over
the value stored at `id`, and does nothing when `id` is absent. -/
def modifyJob : List (Str × ConversionJob) → Str → (ConversionJob → ConversionJob) →
    List (Str × ConversionJob)
  | [], _, _ => []
  | (k, v) :: rest, id, f =>
      if k = id then (k, f v) :: rest else (k, v) :: modifyJob rest id f

/-- Models `HashMap::remove`. -/
def removeKey : List (Str × ConversionJob) → Str → List (Str × ConversionJob)
  | [], _ => []
  | (k, v) :: rest, id => if k = id then rest else (k, v) :: removeKey rest id

/-- Models the loop `for job_id in &completed_job_ids { jobs.remove(job_id) }`
(state.rs:298-301). -/
def removeKeys (m : List (Str × ConversionJob)) (ids : List Str) :
    List (Str × ConversionJob) :=
  ids.foldl removeKey m

/-- Models `HashMap::contains_key`. -/
def containsKey (m : List (Str × ConversionJob)) (id : Str) : Bool :=
  (lookupJob m id).isSome

/-- Embeds `AppState`'s job-related fields (state.rs:33-39): the job map
and the id queue in submission order.  (`history` and `settings` are
outside the claims.) -/
structure AppState where
  jobs : List (Str × ConversionJob)
  job_queue : List Str
deriving DecidableEq

/-- Embeds `AppState::new` (state.rs:55-62). -/
def emptyAppState : AppState := ⟨[], []⟩

/-- Embeds `add_job` (state.rs:171-191): checks existence first, always
inserts into the map, and appends to the queue only when the id was
unseen. -/
def add_job (s : AppState) (job : ConversionJob) : AppState :=
  let job_exists := containsKey s.jobs job.id
  let jobs' := insertJob s.jobs job.id job
  if job_exists then { s with jobs := jobs' }
  else { jobs := jobs', job_queue := s.job_queue ++ [job.id] }

/-- Embeds `update_job` (state.rs:193-199): inserts into the map only,
never touching the queue. -/
def update_job (s : AppState) (job : ConversionJob) : AppState :=
  { s with jobs := insertJob s.jobs job.id job }

/-- Worker for `get_next_queued_job`: first id in queue order whose job
is `Queued` or `Ready`. -/
def nextQueuedAux (jobs : List (Str × ConversionJob)) : List Str → Option Str
  | [] => none
  | id :: rest =>
      match lookupJob jobs id with
      | some j =>
          match j.status with
          | .Queued => some id
          | .Ready => some id
          | _ => nextQueuedAux jobs rest
      | none => nextQueuedAux jobs rest

/-- Embeds `get_next_queued_job` (state.rs:201-214). -/
def get_next_queued_job (s : AppState) : Option Str :=
  nextQueuedAux s.jobs s.job_queue

/-- Worker for `get_next_ready_job`: first id in queue order whose job is
exactly `Ready`. -/
def nextReadyAux (jobs : List (Str × ConversionJob)) : List Str → Option Str
  | [] => none
  | id :: rest =>
      match lookupJob jobs id with
      | some j =>
          match j.status with
          | .Ready => some id
          | _ => nextReadyAux jobs rest
      | none => nextReadyAux jobs rest

/-- Embeds `get_next_ready_job` (state.rs:216-229). -/
def get_next_ready_job (s : AppState) : Option Str :=
  nextReadyAux s.jobs s.job_queue

/-- Tests whether a job record's status is `Processing`. -/
def statusIsProcessing (j : ConversionJob) : Bool :=
  match j.status with
  | .Processing => true
  | _ => false

/-- Embeds `is_any_job_processing` (state.rs:231-234). -/
def is_any_job_processing (s : AppState) : Bool :=
  s.jobs.any (fun kv => statusIsProcessing kv.2)

/-- Embeds `update_job_status` (state.rs:236-241). -/
def update_job_status (s : AppState) (id : Str) (status : JobStatus) : AppState :=
  { s with jobs := modifyJob s.jobs id (fun j => { j with status := status }) }

/-- Embeds `update_job_progress` (state.rs:243-248). -/
def update_job_progress (s : AppState) (id : Str) (progress : ℚ) : AppState :=
  { s with jobs := modifyJob s.jobs id (fun j => { j with progress := progress }) }

/-- Embeds `update_job_status_message` (state.rs:250-258). -/
def update_job_status_message (s : AppState) (id : Str) (message : Str) : AppState :=
  { s with jobs := modifyJob s.jobs id (fun j => { j with status_message := some message }) }

/-- Embeds `get_job` (state.rs:260-263). -/
def get_job (s : AppState) (id : Str) : Option ConversionJob :=
  lookupJob s.jobs id

/-- Embeds `get_all_jobs` (state.rs:265-277): jobs in queue order,
skipping queue ids with no record. -/
def get_all_jobs (s : AppState) : List ConversionJob :=
  s.job_queue.filterMap (fun id => lookupJob s.jobs id)

/-- Tests for the two terminal statuses, `Completed` and `Failed`. -/
def isTerminal : JobStatus → Bool
  | .Completed => true
  | .Failed => true
  | _ => false

/-- Embeds the first lock scope of `clear_completed_jobs`
(state.rs:283-294): collect the ids of terminal jobs from the map. -/
def clearPhaseCollect (s : AppState) : List Str :=
  s.jobs.filterMap (fun kv => if isTerminal kv.2.status then some kv.1 else none)

/-- Embeds the second lock scope of `clear_completed_jobs`
(state.rs:297-302): remove the collected ids from the map.  The queue is
untouched at this point — this is the state a concurrent reader
observes between the second and third lock scopes. -/
def clearPhaseMap (s : AppState) (ids : List Str) : AppState :=
  { s with jobs := removeKeys s.jobs ids }

/-- Embeds the third lock scope of `clear_completed_jobs`
(state.rs:305-308): prune the collected ids from the queue. -/
def clearPhaseQueue (s : AppState) (ids : List Str) : AppState :=
  { s with job_queue := s.job_queue.filter (fun id => !(ids.contains id)) }

/-- Embeds `clear_completed_jobs` (state.rs:279-309) as the composition
of its three separately-locked phases. -/
def clear_completed_jobs (s : AppState) : AppState :=
  let ids := clearPhaseCollect s
  clearPhaseQueue (clearPhaseMap s ids) ids

/-- Number of jobs in the store whose status is `Processing`. -/
def countProcessing (s : AppState) : Nat :=
  s.jobs.countP (fun kv => statusIsProcessing kv.2)

/-- Well-formedness of a store state, maintained by the code: the queue
has no duplicate ids, the map has no duplicate keys, and queue membership
coincides with map membership. -/
def WFStore (s : AppState) : Prop :=
  s.job_queue.Nodup ∧ (s.jobs.map Prod.fst).Nodup ∧
    ∀ id, id ∈ s.job_queue ↔ containsKey s.jobs id = true

/-! ## `lib.rs`: scheduler

The async scheduler is embedded as a small-step transition relation over
`SysState`.  Each constructor of `Step` is one code region executed
atomically between await points; spawned-but-unfinished tasks are
tracked as lists of job ids.  `submittedCount` is a history (ghost)
variable counting submissions, used only in specifications. -/

/-- Embeds the job record built by `add_conversion_job` (lib.rs:302-313). -/
def mkSubmittedJob (id input_path output_path : Str) (preset : VideoPreset) : ConversionJob :=
  { id := id, input_path := input_path, output_path := output_path, preset := preset,
    status := .Queued, progress := 0, duration := none, error := none,
    status_message := some ("Waiting in queue...".toList), thumbnail_path := none }

/-- Embeds the `is_first_job` test of `add_conversion_job`
(lib.rs:318-321), applied to the store state just after `add_job`:
the queue length equals 1. -/
def fastTrackDecision (s : AppState) : Bool := s.job_queue.length == 1

/-- State of the scheduler system: the shared store, the pending
background-probe tasks (`start_preprocessing` spawns not yet run), the
pending priority tasks (`start_priority_processing` spawns before and
after their Ready-write), the queue-processor flag
(`QUEUE_PROCESSOR_RUNNING`, lib.rs:17), and a ghost submission
counter. -/
structure SysState where
  store : AppState
  prioPending : List Str
  prioConverting : List Str
  prepPending : List Str
  loopRunning : Bool
  submittedCount : Nat
deriving DecidableEq

/-- Embeds the head of `convert_job` (lib.rs:210-216): set the job's
status to `Processing`, then its status message.  Note there is no
`is_any_job_processing` check here. -/
def convertJobStart (s : AppState) (id : Str) : AppState :=
  update_job_status_message (update_job_status s id .Processing) id
    ("Converting video...".toList)

/-- Embeds one call of `add_conversion_job` (lib.rs:288-335): add the
job, test `is_first_job` on the queue, spawn the priority task or the
background-probe task accordingly, and start the queue processor
(the compare-and-set leaves the flag true in either case). -/
def submitEffect (s : SysState) (id input_path output_path : Str)
    (preset : VideoPreset) : SysState :=
  let store' := add_job s.store (mkSubmittedJob id input_path output_path preset)
  { store := store',
    prioPending := if fastTrackDecision store' then s.prioPending ++ [id] else s.prioPending,
    prioConverting := s.prioConverting,
    prepPending := if fastTrackDecision store' then s.prepPending else s.prepPending ++ [id],
    loopRunning := true,
    submittedCount := s.submittedCount + 1 }

/-- The record written back when a probe failed and the job was still
`Queued`: status `Ready` with the "Ready to convert" message
(lib.rs:177-180 and the analogous branches). -/
def readyRecord (j : ConversionJob) : ConversionJob :=
  { j with status := .Ready, status_message := some ("Ready to convert".toList) }

/-- The record written back by `start_preprocessing` when the probe
succeeded (lib.rs:129-170): duration and thumbnail set, status promoted
to `Ready` only if still `Queued`. -/
def prepFinishedRecord (j : ConversionJob) (d : ℚ) (thumb : Option Str) : ConversionJob :=
  { j with
    duration := some d,
    thumbnail_path := match thumb with | some p => some p | none => j.thumbnail_path,
    status := if j.status = .Queued then .Ready else j.status,
    status_message := if j.status = .Queued then some ("Ready to convert".toList)
      else j.status_message }

/-- Embeds the body of `start_preprocessing` (lib.rs:121-197) for job
`id` whose record read back as `j`.  `probe` is the outcome of the
duration/thumbnail probe: `some (d, thumb)` when `get_video_duration`
succeeded (with `thumb` the thumbnail path if `generate_thumbnail`
succeeded), `none` when the binary lookup or the probe failed.  On
success the record is written back with duration, thumbnail and — only
if still `Queued` — status `Ready`; on failure it is written back only
if still `Queued`. -/
def prepFinishEffect (s : SysState) (id : Str) (j : ConversionJob)
    (probe : Option (ℚ × Option Str)) : SysState :=
  match probe with
  | some (d, thumb) =>
      { s with store := update_job s.store (prepFinishedRecord j d thumb),
               prepPending := s.prepPending.erase id }
  | none =>
      if j.status = .Queued then
        { s with store := update_job s.store (readyRecord j),
                 prepPending := s.prepPending.erase id }
      else { s with prepPending := s.prepPending.erase id }

/-- The record written back by `start_priority_processing` when the
probe succeeded (lib.rs:58-87): duration and thumbnail set, status
`Ready` unconditionally. -/
def prioProbedRecord (j : ConversionJob) (d : ℚ) (thumb : Option Str) : ConversionJob :=
  { j with
    duration := some d,
    thumbnail_path := match thumb with | some p => some p | none => j.thumbnail_path,
    status := JobStatus.Ready,
    status_message := some ("Ready to convert".toList) }

/-- Embeds the analysis half of `start_priority_processing`
(lib.rs:49-89 and the failure branches 94-117) for job `id` read back as
`j`: in every branch the record is written back with status `Ready`
(plus duration/thumbnail when the probe succeeded) and the task then
proceeds to its immediate `convert_job` call, tracked by moving `id`
into `prioConverting`. -/
def prioSetReadyEffect (s : SysState) (id : Str) (j : ConversionJob)
    (probe : Option (ℚ × Option Str)) : SysState :=
  let j' :=
    match probe with
    | some (d, thumb) => prioProbedRecord j d thumb
    | none => readyRecord j
  { s with
    store := update_job s.store j',
    prioPending := s.prioPending.erase id,
    prioConverting := s.prioConverting ++ [id] }

/-- Small-step transition relation of the scheduler.  `allowPrio = true`
is the system as written; `allowPrio = false` is the subsystem in which
the priority task's ungated `convert_job` call (lib.rs:92,103,115) never
fires, used to state what the polling-loop gate alone guarantees. -/
inductive Step (allowPrio : Bool) : SysState → SysState → Prop where
  | submit (s : SysState) (id input_path output_path : Str) (preset : VideoPreset)
      (hfresh : containsKey s.store.jobs id = false) :
      Step allowPrio s (submitEffect s id input_path output_path preset)
  | prepFinish (s : SysState) (id : Str) (j : ConversionJob) (probe : Option (ℚ × Option Str))
      (hmem : id ∈ s.prepPending) (hjob : get_job s.store id = some j) :
      Step allowPrio s (prepFinishEffect s id j probe)
  | prepFinishMissing (s : SysState) (id : Str)
      (hmem : id ∈ s.prepPending) (hjob : get_job s.store id = none) :
      Step allowPrio s { s with prepPending := s.prepPending.erase id }
  | prioSetReady (s : SysState) (id : Str) (j : ConversionJob) (probe : Option (ℚ × Option Str))
      (hmem : id ∈ s.prioPending) (hjob : get_job s.store id = some j) :
      Step allowPrio s (prioSetReadyEffect s id j probe)
  | prioSetReadyMissing (s : SysState) (id : Str)
      (hmem : id ∈ s.prioPending) (hjob : get_job s.store id = none) :
      Step allowPrio s { s with prioPending := s.prioPending.erase id }
  | prioConvert (s : SysState) (id : Str) (j : ConversionJob)
      (hp : allowPrio = true) (hmem : id ∈ s.prioConverting)
      (hjob : get_job s.store id = some j) :
      Step allowPrio s
        { s with store := convertJobStart s.store id,
                 prioConverting := s.prioConverting.erase id }
  | prioConvertMissing (s : SysState) (id : Str)
      (hmem : id ∈ s.prioConverting) (hjob : get_job s.store id = none) :
      Step allowPrio s { s with prioConverting := s.prioConverting.erase id }
  | loopDispatch (s : SysState) (id : Str)
      (hrun : s.loopRunning = true)
      (hready : get_next_ready_job s.store = some id)
      (hnoproc : is_any_job_processing s.store = false) :
      Step allowPrio s { s with store := convertJobStart s.store id }
  | loopStop (s : SysState)
      (hrun : s.loopRunning = true)
      (hready : get_next_ready_job s.store = none)
      (hqueued : get_next_queued_job s.store = none) :
      Step allowPrio s { s with loopRunning := false }
  | finishOk (s : SysState) (id : Str) (j : ConversionJob)
      (hjob : get_job s.store id = some j) (hproc : j.status = .Processing) :
      Step allowPrio s { s with store := update_job_status s.store id .Completed }
  | finishFail (s : SysState) (id : Str) (j : ConversionJob) (err : Str)
      (hjob : get_job s.store id = some j) (hproc : j.status = .Processing) :
      Step allowPrio s
        { s with store := update_job s.store { j with status := .Failed, error := some err } }
  | clearTerminal (s : SysState) :
      Step allowPrio s { s with store := clear_completed_jobs s.store }

/-- Initial system state: empty store, no tasks, processor flag down. -/
def initState : SysState := ⟨emptyAppState, [], [], [], false, 0⟩

/-- Reachability of the scheduler system from the initial state. -/
def ReachableSys (allowPrio : Bool) (s : SysState) : Prop :=
  Relation.ReflTransGen (Step allowPrio) initState s

/-! ## Map lemmas -/

theorem lookup_insertJob (m : List (Str × ConversionJob)) (id : Str) (j : ConversionJob)
    (id' : Str) :
    lookupJob (insertJob m id j) id' = if id' = id then some j else lookupJob m id' := by
  induction m with
  | nil =>
    simp only [insertJob, lookupJob]
    split_ifs with h1 h2 <;> simp_all [eq_comm]
  | cons kv rest ih =>
    obtain ⟨k, v⟩ := kv
    simp only [insertJob, lookupJob]
    split_ifs with h1 h2 h3 <;> simp_all [lookupJob, eq_comm]

theorem lookup_modifyJob (m : List (Str × ConversionJob)) (id : Str)
    (f : ConversionJob → ConversionJob) (id' : Str) :
    lookupJob (modifyJob m id f) id' =
      if id' = id then (lookupJob m id).map f else lookupJob m id' := by
  induction m with
  | nil =>
    simp only [modifyJob, lookupJob]
    split_ifs with h1 <;> simp_all
  | cons kv rest ih =>
    obtain ⟨k, v⟩ := kv
    simp only [modifyJob, lookupJob]
    split_ifs with h1 h2 h3 <;> simp_all [lookupJob, eq_comm]

theorem modifyJob_absent (m : List (Str × ConversionJob)) (id : Str)
    (f : ConversionJob → ConversionJob) (h : lookupJob m id = none) :
    modifyJob m id f = m := by
  induction m with
  | nil => simp [modifyJob]
  | cons kv rest ih =>
    obtain ⟨k, v⟩ := kv
    by_cases hk : k = id
    · simp [lookupJob, hk] at h
    · simp [lookupJob, hk] at h
      simp [modifyJob, hk, ih h]

theorem countP_insertJob_present (m : List (Str × ConversionJob)) (id : Str)
    (j old : ConversionJob) (p : Str × ConversionJob → Bool)
    (h : lookupJob m id = some old) :
    (insertJob m id j).countP p + (if p (id, old) then 1 else 0) =
      m.countP p + (if p (id, j) then 1 else 0) := by
  induction m with
  | nil => simp [lookupJob] at h
  | cons kv rest ih =>
    obtain ⟨k, v⟩ := kv
    by_cases hk : k = id
    · subst hk
      have hv : v = old := by simpa [lookupJob] using h
      subst hv
      simp [insertJob, List.countP_cons]
      omega
    · simp only [lookupJob, if_neg hk] at h
      simp only [insertJob, if_neg hk, List.countP_cons]
      have := ih h
      omega

theorem countP_insertJob_absent (m : List (Str × ConversionJob)) (id : Str)
    (j : ConversionJob) (p : Str × ConversionJob → Bool)
    (h : lookupJob m id = none) :
    (insertJob m id j).countP p = m.countP p + (if p (id, j) then 1 else 0) := by
  induction m with
  | nil => simp [insertJob, List.countP_cons]
  | cons kv rest ih =>
    obtain ⟨k, v⟩ := kv
    by_cases hk : k = id
    · simp [lookupJob, hk] at h
    · simp only [lookupJob, if_neg hk] at h
      simp only [insertJob, if_neg hk, List.countP_cons]
      have := ih h
      omega

theorem countP_modifyJob_present (m : List (Str × ConversionJob)) (id : Str)
    (f : ConversionJob → ConversionJob) (old : ConversionJob)
    (p : Str × ConversionJob → Bool) (h : lookupJob m id = some old) :
    (modifyJob m id f).countP p + (if p (id, old) then 1 else 0) =
      m.countP p + (if p (id, f old) then 1 else 0) := by
  induction m with
  | nil => simp [lookupJob] at h
  | cons kv rest ih =>
    obtain ⟨k, v⟩ := kv
    by_cases hk : k = id
    · subst hk
      have hv : v = old := by simpa [lookupJob] using h
      subst hv
      simp [modifyJob, List.countP_cons]
      omega
    · simp only [lookupJob, if_neg hk] at h
      simp only [modifyJob, if_neg hk, List.countP_cons]
      have := ih h
      omega

theorem countP_removeKey_le (m : List (Str × ConversionJob)) (id : Str)
    (p : Str × ConversionJob → Bool) :
    (removeKey m id).countP p ≤ m.countP p := by
  induction m with
  | nil => simp [removeKey]
  | cons kv rest ih =>
    obtain ⟨k, v⟩ := kv
    by_cases hk : k = id
    · simp only [removeKey, if_pos hk, List.countP_cons]
      omega
    · simp only [removeKey, if_neg hk, List.countP_cons]
      omega

theorem countP_removeKeys_le (ids : List Str) (m : List (Str × ConversionJob))
    (p : Str × ConversionJob → Bool) :
    (removeKeys m ids).countP p ≤ m.countP p := by
  induction ids generalizing m with
  | nil => simp [removeKeys]
  | cons id rest ih =>
    calc (removeKeys m (id :: rest)).countP p
        = (removeKeys (removeKey m id) rest).countP p := rfl
      _ ≤ (removeKey m id).countP p := ih _
      _ ≤ m.countP p := countP_removeKey_le m id p

theorem nextReadyAux_spec (jobs : List (Str × ConversionJob)) (q : List Str) (id : Str)
    (h : nextReadyAux jobs q = some id) :
    ∃ j, lookupJob jobs id = some j ∧ j.status = .Ready := by
  induction q with
  | nil => simp [nextReadyAux] at h
  | cons x rest ih =>
    simp only [nextReadyAux] at h
    cases hx : lookupJob jobs x with
    | none =>
      simp only [hx] at h
      exact ih h
    | some j =>
      simp only [hx] at h
      cases hst : j.status <;> simp only [hst] at h
      case Ready =>
        obtain rfl : x = id := by simpa using h
        exact ⟨j, hx, hst⟩
      all_goals exact ih h

theorem countProcessing_eq_zero_of_none_processing (s : AppState)
    (h : is_any_job_processing s = false) : countProcessing s = 0 := by
  rw [countProcessing, List.countP_eq_zero]
  intro kv hkv
  rw [is_any_job_processing] at h
  intro hp
  have hany : s.jobs.any (fun kv => statusIsProcessing kv.2) = true :=
    List.any_eq_true.mpr ⟨kv, hkv, show (fun kv : Str × ConversionJob => statusIsProcessing kv.2) kv = true from hp⟩
  rw [h] at hany
  exact Bool.noConfusion hany

theorem lookup_mem (m : List (Str × ConversionJob)) (id : Str) (j : ConversionJob)
    (h : lookupJob m id = some j) : (id, j) ∈ m := by
  induction m with
  | nil => simp [lookupJob] at h
  | cons kv rest ih =>
    obtain ⟨k, v⟩ := kv
    by_cases hk : k = id
    · subst hk
      have hv : v = j := by simpa [lookupJob] using h
      subst hv
      exact List.mem_cons_self _ _
    · simp only [lookupJob, if_neg hk] at h
      exact List.mem_cons_of_mem _ (ih h)

theorem mem_insertJob (m : List (Str × ConversionJob)) (id : Str) (j : ConversionJob)
    (kv : Str × ConversionJob) (h : kv ∈ insertJob m id j) : kv ∈ m ∨ kv = (id, j) := by
  induction m with
  | nil => simp [insertJob] at h; right; exact h
  | cons kv0 rest ih =>
    obtain ⟨k, v⟩ := kv0
    by_cases hk : k = id
    · subst hk
      simp only [insertJob, if_pos rfl] at h
      rcases List.mem_cons.mp h with h | h
      · right; exact h
      · left; exact List.mem_cons_of_mem _ h
    · simp only [insertJob, if_neg hk] at h
      rcases List.mem_cons.mp h with h | h
      · left; simp [h]
      · rcases ih h with h | h
        · left; exact List.mem_cons_of_mem _ h
        · right; exact h

theorem mem_modifyJob (m : List (Str × ConversionJob)) (id : Str)
    (f : ConversionJob → ConversionJob) (kv : Str × ConversionJob)
    (h : kv ∈ modifyJob m id f) : kv ∈ m ∨ ∃ kv' ∈ m, kv = (kv'.1, f kv'.2) := by
  induction m with
  | nil => simp [modifyJob] at h
  | cons kv0 rest ih =>
    obtain ⟨k, v⟩ := kv0
    by_cases hk : k = id
    · simp only [modifyJob, if_pos hk] at h
      rcases List.mem_cons.mp h with h | h
      · right; exact ⟨(k, v), List.mem_cons_self _ _, h⟩
      · left; exact List.mem_cons_of_mem _ h
    · simp only [modifyJob, if_neg hk] at h
      rcases List.mem_cons.mp h with h | h
      · left; simp [h]
      · rcases ih h with h | ⟨kv', hkv', he⟩
        · left; exact List.mem_cons_of_mem _ h
        · right; exact ⟨kv', List.mem_cons_of_mem _ hkv', he⟩

theorem mem_removeKey (m : List (Str × ConversionJob)) (id : Str)
    (kv : Str × ConversionJob) (h : kv ∈ removeKey m id) : kv ∈ m := by
  induction m with
  | nil => simp [removeKey] at h
  | cons kv0 rest ih =>
    obtain ⟨k, v⟩ := kv0
    by_cases hk : k = id
    · simp only [removeKey, if_pos hk] at h
      exact List.mem_cons_of_mem _ h
    · simp only [removeKey, if_neg hk] at h
      rcases List.mem_cons.mp h with h | h
      · simp [h]
      · exact List.mem_cons_of_mem _ (ih h)

theorem mem_removeKeys (ids : List Str) (m : List (Str × ConversionJob))
    (kv : Str × ConversionJob) (h : kv ∈ removeKeys m ids) : kv ∈ m := by
  induction ids generalizing m with
  | nil => simpa [removeKeys] using h
  | cons id rest ih =>
    exact mem_removeKey m id kv (ih (removeKey m id) h)

theorem countP_insertJob_le_of_not (m : List (Str × ConversionJob)) (id : Str)
    (j : ConversionJob) (p : Str × ConversionJob → Bool) (hp : p (id, j) = false) :
    (insertJob m id j).countP p ≤ m.countP p := by
  cases hl : lookupJob m id with
  | none =>
    rw [countP_insertJob_absent m id j p hl, hp]
    simp
  | some old =>
    have heq := countP_insertJob_present m id j old p hl
    rw [hp] at heq
    simp only [Bool.false_eq_true, if_false] at heq
    by_cases hq : p (id, old) = true
    · rw [if_pos hq] at heq; omega
    · rw [if_neg hq] at heq; omega

theorem countP_modifyJob_le_of_not (m : List (Str × ConversionJob)) (id : Str)
    (f : ConversionJob → ConversionJob) (p : Str × ConversionJob → Bool)
    (hp : ∀ v, p (id, f v) = false) :
    (modifyJob m id f).countP p ≤ m.countP p := by
  cases hl : lookupJob m id with
  | none => rw [modifyJob_absent m id f hl]
  | some old =>
    have heq := countP_modifyJob_present m id f old p hl
    rw [hp old] at heq
    simp only [Bool.false_eq_true, if_false] at heq
    by_cases hq : p (id, old) = true
    · rw [if_pos hq] at heq; omega
    · rw [if_neg hq] at heq; omega

theorem countP_modifyJob_preserving (m : List (Str × ConversionJob)) (id : Str)
    (f : ConversionJob → ConversionJob) (p : Str × ConversionJob → Bool)
    (hp : ∀ v, p (id, f v) = p (id, v)) :
    (modifyJob m id f).countP p = m.countP p := by
  cases hl : lookupJob m id with
  | none => rw [modifyJob_absent m id f hl]
  | some old =>
    have := countP_modifyJob_present m id f old p hl
    rw [hp old] at this
    omega

/-- Key consistency of the job map: every entry's record carries the key
as its `id`; established by every code path that writes the map. -/
def KeysMatch (s : AppState) : Prop := ∀ kv ∈ s.jobs, (kv.2).id = kv.1

theorem add_job_jobs (s : AppState) (j : ConversionJob) :
    (add_job s j).jobs = insertJob s.jobs j.id j := by
  rw [add_job]
  split <;> rfl

theorem add_job_queue (s : AppState) (j : ConversionJob) :
    (add_job s j).job_queue =
      if containsKey s.jobs j.id then s.job_queue else s.job_queue ++ [j.id] := by
  rw [add_job]
  split_ifs with h <;> simp_all [add_job]

theorem keysMatch_insert {m : List (Str × ConversionJob)} {id : Str} {j : ConversionJob}
    (h : ∀ kv ∈ m, (kv.2).id = kv.1) (kv : Str × ConversionJob)
    (hkv : kv ∈ insertJob m id j) (hj : j.id = id) : (kv.2).id = kv.1 := by
  rcases mem_insertJob m id j kv hkv with hkv | hkv
  · exact h kv hkv
  · subst hkv; exact hj

theorem keysMatch_modify {m : List (Str × ConversionJob)} {id : Str}
    {f : ConversionJob → ConversionJob}
    (h : ∀ kv ∈ m, (kv.2).id = kv.1) (kv : Str × ConversionJob)
    (hkv : kv ∈ modifyJob m id f) (hf : ∀ v, (f v).id = v.id) : (kv.2).id = kv.1 := by
  rcases mem_modifyJob m id f kv hkv with hkv | ⟨kv', hkv', he⟩
  · exact h kv hkv
  · subst he
    simpa [hf kv'.2] using h kv' hkv'

/-- Status predicate used by `countProcessing`, as a map-entry
predicate. -/
def entryProcessing (kv : Str × ConversionJob) : Bool := statusIsProcessing kv.2

theorem countProcessing_def (s : AppState) :
    countProcessing s = s.jobs.countP entryProcessing := rfl

theorem countP_update_job_le_of_not (s : AppState) (j' : ConversionJob)
    (hp : statusIsProcessing j' = false) :
    (update_job s j').jobs.countP entryProcessing ≤ s.jobs.countP entryProcessing := by
  simp only [update_job]
  exact countP_insertJob_le_of_not _ _ _ _ hp

theorem countP_update_job_same (s : AppState) (j' old : ConversionJob)
    (hl : lookupJob s.jobs j'.id = some old)
    (hp : statusIsProcessing j' = statusIsProcessing old) :
    (update_job s j').jobs.countP entryProcessing = s.jobs.countP entryProcessing := by
  simp only [update_job]
  have heq := countP_insertJob_present s.jobs j'.id j' old entryProcessing hl
  have : entryProcessing (j'.id, old) = entryProcessing (j'.id, j') := by
    simp [entryProcessing, hp]
  rw [this] at heq
  omega

theorem statusIsProcessing_readyRecord (j : ConversionJob) :
    statusIsProcessing (readyRecord j) = false := rfl

theorem statusIsProcessing_prioProbedRecord (j : ConversionJob) (d : ℚ) (thumb : Option Str) :
    statusIsProcessing (prioProbedRecord j d thumb) = false := rfl

theorem statusIsProcessing_prepFinishedRecord (j : ConversionJob) (d : ℚ) (thumb : Option Str) :
    statusIsProcessing (prepFinishedRecord j d thumb) = statusIsProcessing j := by
  by_cases hq : j.status = .Queued <;>
    simp [prepFinishedRecord, statusIsProcessing, hq]

/-- Single-step preservation of the scheduler invariant in the gated
subsystem (`allowPrio = false`): map keys stay consistent and at most
one job is `Processing`. -/
theorem stepInvariant (s t : SysState) (hstep : Step false s t)
    (hkm : KeysMatch s.store) (hc : countProcessing s.store ≤ 1) :
    KeysMatch t.store ∧ countProcessing t.store ≤ 1 := by
  cases hstep with
  | submit id input_path output_path preset hfresh =>
    constructor
    · intro kv hkv
      simp only [submitEffect, add_job_jobs] at hkv
      exact keysMatch_insert hkm kv hkv rfl
    · simp only [submitEffect, countProcessing_def, add_job_jobs]
      calc (insertJob s.store.jobs _ _).countP entryProcessing
          ≤ s.store.jobs.countP entryProcessing :=
            countP_insertJob_le_of_not _ _ _ _
              (show statusIsProcessing (mkSubmittedJob id input_path output_path preset) = false
                from rfl)
        _ ≤ 1 := hc
  | prepFinish id j probe hmem hjob =>
    have hid : j.id = id := hkm (id, j) (lookup_mem _ _ _ hjob)
    cases probe with
    | none =>
      by_cases hq : j.status = .Queued
      · constructor
        · intro kv hkv
          simp only [prepFinishEffect, if_pos hq, update_job] at hkv
          exact keysMatch_insert hkm kv hkv rfl
        · simp only [prepFinishEffect, if_pos hq, countProcessing_def]
          calc (update_job s.store (readyRecord j)).jobs.countP entryProcessing
              ≤ s.store.jobs.countP entryProcessing :=
                countP_update_job_le_of_not _ _ (statusIsProcessing_readyRecord j)
            _ ≤ 1 := hc
      · constructor
        · intro kv hkv
          simp only [prepFinishEffect, if_neg hq] at hkv
          exact hkm kv hkv
        · simpa [prepFinishEffect, if_neg hq, countProcessing_def] using hc
    | some pr =>
      obtain ⟨d, thumb⟩ := pr
      constructor
      · intro kv hkv
        simp only [prepFinishEffect, update_job] at hkv
        exact keysMatch_insert hkm kv hkv rfl
      · simp only [prepFinishEffect, countProcessing_def]
        have hkey : (prepFinishedRecord j d thumb).id = id := hid
        rw [countP_update_job_same s.store (prepFinishedRecord j d thumb) j
          (by rw [show (prepFinishedRecord j d thumb).id = id from hid]; exact hjob)
          (statusIsProcessing_prepFinishedRecord j d thumb)]
        exact hc
  | prepFinishMissing id hmem hjob =>
    exact ⟨hkm, hc⟩
  | prioSetReady id j probe hmem hjob =>
    cases probe with
    | none =>
      constructor
      · intro kv hkv
        simp only [prioSetReadyEffect, update_job] at hkv
        exact keysMatch_insert hkm kv hkv rfl
      · simp only [prioSetReadyEffect, countProcessing_def]
        calc (update_job s.store (readyRecord j)).jobs.countP entryProcessing
            ≤ s.store.jobs.countP entryProcessing :=
              countP_update_job_le_of_not _ _ (statusIsProcessing_readyRecord j)
          _ ≤ 1 := hc
    | some pr =>
      obtain ⟨d, thumb⟩ := pr
      constructor
      · intro kv hkv
        simp only [prioSetReadyEffect, update_job] at hkv
        exact keysMatch_insert hkm kv hkv rfl
      · simp only [prioSetReadyEffect, countProcessing_def]
        calc (update_job s.store (prioProbedRecord j d thumb)).jobs.countP entryProcessing
            ≤ s.store.jobs.countP entryProcessing :=
              countP_update_job_le_of_not _ _ (statusIsProcessing_prioProbedRecord j d thumb)
          _ ≤ 1 := hc
  | prioSetReadyMissing id hmem hjob =>
    exact ⟨hkm, hc⟩
  | prioConvert id j hp hmem hjob =>
    exact Bool.noConfusion hp
  | prioConvertMissing id hmem hjob =>
    exact ⟨hkm, hc⟩
  | loopDispatch id hrun hready hnoproc =>
    obtain ⟨jr, hjr, hst⟩ := nextReadyAux_spec s.store.jobs s.store.job_queue id hready
    have hzero : countProcessing s.store = 0 :=
      countProcessing_eq_zero_of_none_processing s.store hnoproc
    rw [countProcessing_def] at hzero
    constructor
    · intro kv hkv
      simp only [convertJobStart, update_job_status_message, update_job_status] at hkv
      refine keysMatch_modify ?h1 kv hkv (fun v => rfl)
      intro kv2 hkv2
      exact keysMatch_modify hkm kv2 hkv2 (fun v => rfl)
    · simp only [convertJobStart, countProcessing_def, update_job_status_message,
        update_job_status]
      rw [countP_modifyJob_preserving _ id _ entryProcessing
        (fun v => by simp [entryProcessing, statusIsProcessing])]
      have heq := countP_modifyJob_present s.store.jobs id
        (fun j => { j with status := .Processing }) jr entryProcessing hjr
      have h1 : entryProcessing (id, ({ jr with status := .Processing } : ConversionJob)) = true := by
        simp [entryProcessing, statusIsProcessing]
      have h2 : entryProcessing (id, jr) = false := by
        simp [entryProcessing, statusIsProcessing, hst]
      rw [h1, h2] at heq
      simp only [if_true, Bool.false_eq_true, if_false] at heq
      omega
  | loopStop hrun hready hqueued =>
    exact ⟨hkm, hc⟩
  | finishOk id j hjob hproc =>
    constructor
    · intro kv hkv
      simp only [update_job_status] at hkv
      exact keysMatch_modify hkm kv hkv (fun v => rfl)
    · simp only [countProcessing_def, update_job_status]
      calc (modifyJob s.store.jobs id _).countP entryProcessing
          ≤ s.store.jobs.countP entryProcessing :=
            countP_modifyJob_le_of_not _ _ _ _
              (fun v => by simp [entryProcessing, statusIsProcessing])
        _ ≤ 1 := hc
  | finishFail id j err hjob hproc =>
    constructor
    · intro kv hkv
      simp only [update_job] at hkv
      exact keysMatch_insert hkm kv hkv rfl
    · simp only [countProcessing_def, update_job]
      calc (insertJob s.store.jobs _ _).countP entryProcessing
          ≤ s.store.jobs.countP entryProcessing :=
            countP_insertJob_le_of_not _ _ _ _
              (show statusIsProcessing ({ j with status := .Failed, error := some err }) = false
                from rfl)
        _ ≤ 1 := hc
  | clearTerminal =>
    constructor
    · intro kv hkv
      simp only [clear_completed_jobs, clearPhaseQueue, clearPhaseMap] at hkv
      exact hkm kv (mem_removeKeys _ _ kv hkv)
    · simp only [countProcessing_def, clear_completed_jobs, clearPhaseQueue, clearPhaseMap]
      calc (removeKeys s.store.jobs _).countP entryProcessing
          ≤ s.store.jobs.countP entryProcessing := countP_removeKeys_le _ _ _
        _ ≤ 1 := hc


/-! ## Concrete scenario used by the scheduler counterexamples -/

/-- A concrete preset (the "High" catalog entry, ffmpeg.rs:50-58). -/
def cexPreset : VideoPreset :=
  { name := "High".toList,
    description := [],
    video_codec := "libx264".toList,
    audio_codec := "aac".toList,
    bitrate := none, crf := some 18, scale := none }

def cexIdA : Str := "a".toList

def cexIdB : Str := "b".toList

def cexJobA : ConversionJob :=
  mkSubmittedJob cexIdA ("/in/a.mov".toList) ("/out/a.mp4".toList) cexPreset

def cexJobB : ConversionJob :=
  mkSubmittedJob cexIdB ("/in/b.mov".toList) ("/out/b.mp4".toList) cexPreset

/-- Job a submitted first: fast-tracked (priority task spawned). -/
def c1s1 : SysState :=
  submitEffect initState cexIdA ("/in/a.mov".toList) ("/out/a.mp4".toList) cexPreset

/-- Job b submitted second: background probe spawned. -/
def c1s2 : SysState :=
  submitEffect c1s1 cexIdB ("/in/b.mov".toList) ("/out/b.mp4".toList) cexPreset

/-- Job b's probe finishes (probe failed branch): b becomes Ready while
a is still Queued (its priority task has not run yet). -/
def c1s3 : SysState := prepFinishEffect c1s2 cexIdB cexJobB none

/-- The polling loop dispatches b (the first Ready job; a is Queued and
skipped; nothing is Processing yet): b becomes Processing. -/
def c1s4 : SysState := { c1s3 with store := convertJobStart c1s3.store cexIdB }

/-- Job a's priority task now runs its analysis and sets a Ready. -/
def c1s5 : SysState := prioSetReadyEffect c1s4 cexIdA cexJobA none

/-- The priority task immediately calls `convert_job` for a with no
`is_any_job_processing` check: a becomes Processing while b still is. -/
def c1s6 : SysState :=
  { c1s5 with store := convertJobStart c1s5.store cexIdA,
              prioConverting := c1s5.prioConverting.erase cexIdA }

/-- C1 counterexample: the state `c1s6`, in which the two distinct jobs
a and b hold status `Processing` simultaneously, is reachable in the
scheduler as written (fast-track path enabled).  The fast-track path
calls `convert_job` without consulting `is_any_job_processing`, so the
claimed mutual-exclusion invariant fails under this interleaving of two
submissions, one background probe, one loop dispatch and the priority
pipeline. -/
theorem C1_counterexample :
    ReachableSys true c1s6 ∧ countProcessing c1s6.store = 2 := by
  constructor
  · have h1 : Step true initState c1s1 :=
      Step.submit _ _ _ _ _ (by decide)
    have h2 : Step true c1s1 c1s2 :=
      Step.submit _ _ _ _ _ (by decide)
    have h3 : Step true c1s2 c1s3 :=
      Step.prepFinish _ _ _ _ (by decide) (by decide)
    have h4 : Step true c1s3 c1s4 :=
      Step.loopDispatch _ _ (by decide) (by decide) (by decide)
    have h5 : Step true c1s4 c1s5 :=
      Step.prioSetReady _ _ _ _ (by decide) (by decide)
    have h6 : Step true c1s5 c1s6 :=
      Step.prioConvert _ _ (readyRecord cexJobA) rfl (by decide) (by decide)
    exact .tail (.tail (.tail (.tail (.tail (.single h1) h2) h3) h4) h5) h6
  · decide

/-- C1 (amended): mutual exclusion as claimed holds only for the
dispatches that go through the polling loop's
`is_any_job_processing` gate.  In the subsystem where the fast-track
path's ungated `convert_job` call never fires (`allowPrio = false`),
every reachable state has at most one job with status `Processing`. -/
theorem C1_gated_mutual_exclusion (s : SysState) (h : ReachableSys false s) :
    countProcessing s.store ≤ 1 := by
  have main : KeysMatch s.store ∧ countProcessing s.store ≤ 1 := by
    induction h with
    | refl =>
      refine ⟨?km, by decide⟩
      intro kv hkv
      simp [initState, emptyAppState] at hkv
    | tail hab hbc ih => exact stepInvariant _ _ hbc ih.1 ih.2
  exact main.2

/-- Witness for C1's amended theorem at the initial state. -/
theorem C1_gated_mutual_exclusion_witness :
    countProcessing initState.store ≤ 1 :=
  C1_gated_mutual_exclusion initState Relation.ReflTransGen.refl


/-- Job a submitted as the first job ever: fast-tracked. -/
def c2s1 : SysState :=
  submitEffect initState cexIdA ("/in/a.mov".toList) ("/out/a.mp4".toList) cexPreset

/-- Job a's priority task sets it Ready. -/
def c2s2 : SysState := prioSetReadyEffect c2s1 cexIdA cexJobA none

/-- Job a's priority task starts converting it. -/
def c2s3 : SysState :=
  { c2s2 with store := convertJobStart c2s2.store cexIdA,
              prioConverting := c2s2.prioConverting.erase cexIdA }

/-- Job a's record while it is converting. -/
def c2jobAProcessing : ConversionJob :=
  { cexJobA with status := .Processing,
                 status_message := some ("Converting video...".toList) }

/-- Job a's conversion succeeds: a becomes Completed. -/
def c2s4 : SysState :=
  { c2s3 with store := update_job_status c2s3.store cexIdA .Completed }

/-- The user clears terminal jobs: the store drains back to empty. -/
def c2s5 : SysState := { c2s4 with store := clear_completed_jobs c2s4.store }

/-- Job b is then submitted: the queue length after insertion is 1
again, so b is fast-tracked too. -/
def c2s6 : SysState :=
  submitEffect c2s5 cexIdB ("/in/b.mov".toList) ("/out/b.mp4".toList) cexPreset

/-- C2 counterexample: after the first job ever (a) completes and the
terminal jobs are cleared, the next submission (b) — the second job
ever submitted, witnessed by the ghost submission counter reading 2 —
also takes the fast-track path (its id is handed to the priority task,
not the background-probe task), because `add_conversion_job` keys the
decision on the queue length after insertion being 1, not on "first
ever".  This refutes the claimed "if and only if the submitted job is
the first job ever submitted". -/
theorem C2_counterexample :
    ReachableSys true c2s6 ∧ c2s6.submittedCount = 2 ∧ c2s6.prioPending = [cexIdB] := by
  refine ⟨?reach, by decide, by decide⟩
  have h1 : Step true initState c2s1 :=
    Step.submit _ _ _ _ _ (by decide)
  have h2 : Step true c2s1 c2s2 :=
    Step.prioSetReady _ _ _ _ (by decide) (by decide)
  have h3 : Step true c2s2 c2s3 :=
    Step.prioConvert _ _ (readyRecord cexJobA) rfl (by decide) (by decide)
  have h4 : Step true c2s3 c2s4 :=
    Step.finishOk _ _ c2jobAProcessing (by decide) rfl
  have h5 : Step true c2s4 c2s5 :=
    Step.clearTerminal _
  have h6 : Step true c2s5 c2s6 :=
    Step.submit _ _ _ _ _ (by decide)
  exact .tail (.tail (.tail (.tail (.tail (.single h1) h2) h3) h4) h5) h6

/-- C2 (amended): `add_conversion_job` takes the fast-track path exactly
when the order queue is empty at the moment of submission (equivalently,
the queue length just after insertion is 1) — not exactly when the job
is the first ever submitted.  After terminal jobs are cleared and the
queue drains, the next submission fast-tracks again; any submission that
does not meet the queue-empty test is handed to the background probe and
left for the polling loop. -/
theorem C2_fastTrack_iff_empty_queue (s : AppState) (j : ConversionJob)
    (hfresh : containsKey s.jobs j.id = false) :
    fastTrackDecision (add_job s j) = true ↔ s.job_queue = [] := by
  rw [fastTrackDecision, add_job_queue, if_neg (by simp [hfresh])]
  simp [List.length_eq_zero]

/-- Witness for C2's amended theorem: on an empty store the submission
is fast-tracked. -/
theorem C2_fastTrack_iff_empty_queue_witness :
    fastTrackDecision (add_job emptyAppState cexJobA) = true :=
  (C2_fastTrack_iff_empty_queue emptyAppState cexJobA (by decide)).mpr rfl


/-- A resubmission of job a's id with different field values. -/
def cexJobA2 : ConversionJob :=
  { cexJobA with output_path := ("/out/a-v2.mp4".toList),
                 status_message := some ("resubmitted".toList) }

theorem count_eq_zero_of_not_mem_queue {l : List Str} {a : Str} (h : a ∉ l) :
    l.count a = 0 := by
  induction l with
  | nil => rfl
  | cons b t ih =>
    rw [List.count_cons]
    have hb : (b == a) = false := by
      simp only [beq_eq_false_iff_ne]
      rintro rfl
      exact h (List.mem_cons_self _ _)
    rw [hb, ih (fun hm => h (List.mem_cons_of_mem _ hm))]
    simp

theorem count_eq_one_of_nodup_mem_queue {l : List Str} {a : Str}
    (hnd : l.Nodup) (hm : a ∈ l) : l.count a = 1 := by
  induction l with
  | nil => cases hm
  | cons b t ih =>
    rw [List.count_cons]
    rcases List.mem_cons.mp hm with rfl | hm'
    · rw [count_eq_zero_of_not_mem_queue (List.nodup_cons.mp hnd).1]
      simp
    · have hb : (b == a) = false := by
        simp only [beq_eq_false_iff_ne]
        rintro rfl
        exact (List.nodup_cons.mp hnd).1 hm'
      rw [hb, ih (List.nodup_cons.mp hnd).2 hm']
      simp

/-- C3: submitting the same id twice leaves exactly one occurrence of
the id in the order queue (the second `add_job` sees the id in the map
and skips the enqueue), and the stored record afterwards is exactly the
second submission's record.  Stated for well-formed stores (no duplicate
queue entries or map keys, queue ids = map keys), which is what the code
maintains. -/
theorem C3_resubmission_idempotent (s : AppState) (j1 j2 : ConversionJob)
    (hWF : WFStore s) (hid : j1.id = j2.id) :
    (add_job (add_job s j1) j2).job_queue.count j2.id = 1 ∧
    lookupJob (add_job (add_job s j1) j2).jobs j2.id = some j2 := by
  obtain ⟨hqnodup, hknodup, hiff⟩ := hWF
  rw [← hid]
  have m1 : (add_job s j1).jobs = insertJob s.jobs j1.id j1 := add_job_jobs s j1
  have hc2 : containsKey (add_job s j1).jobs j1.id = true := by
    rw [m1, containsKey, lookup_insertJob]
    simp
  have q2 : (add_job (add_job s j1) j2).job_queue = (add_job s j1).job_queue := by
    rw [add_job_queue, ← hid, if_pos hc2]
  have m2 : (add_job (add_job s j1) j2).jobs =
      insertJob (insertJob s.jobs j1.id j1) j2.id j2 := by
    rw [add_job_jobs, m1]
  constructor
  · rw [q2, add_job_queue]
    by_cases hc : containsKey s.jobs j1.id
    · rw [if_pos hc]
      exact count_eq_one_of_nodup_mem_queue hqnodup ((hiff j1.id).mpr hc)
    · rw [if_neg hc]
      have hnotmem : j1.id ∉ s.job_queue := fun hmem => hc ((hiff j1.id).mp hmem)
      rw [List.count_append, count_eq_zero_of_not_mem_queue hnotmem]
      simp [List.count_cons]
  · rw [m2, ← hid, lookup_insertJob]
    simp

/-- Witness for C3 on the empty store, resubmitting id a with new
fields. -/
theorem C3_witness :
    (add_job (add_job emptyAppState cexJobA) cexJobA2).job_queue.count cexJobA2.id = 1 ∧
    lookupJob (add_job (add_job emptyAppState cexJobA) cexJobA2).jobs cexJobA2.id =
      some cexJobA2 :=
  C3_resubmission_idempotent emptyAppState cexJobA cexJobA2
    ⟨List.nodup_nil, List.nodup_nil, fun id => by simp [emptyAppState, containsKey, lookupJob]⟩
    rfl

/-- C8 counterexample: `update_job` on an id absent from the store is
not a no-op — `HashMap::insert` creates the record, so a follow-up
lookup returns the job rather than empty. -/
theorem C8_counterexample :
    containsKey emptyAppState.jobs cexJobA.id = false ∧
    get_job (update_job emptyAppState cexJobA) cexJobA.id = some cexJobA := by
  constructor
  · decide
  · decide

/-- C8 (amended): `update_job` is an upsert into the map that never
touches the queue: the stored record for the job's id becomes the given
record (creating it when the id was absent, so a follow-up lookup
returns it, not empty), and every other id and the order queue are
unchanged. -/
theorem C8_update_job_upsert (s : AppState) (j : ConversionJob) (id' : Str) :
    (update_job s j).job_queue = s.job_queue ∧
    get_job (update_job s j) id' = if id' = j.id then some j else get_job s id' := by
  constructor
  · rfl
  · rw [get_job, update_job]
    exact lookup_insertJob s.jobs j.id j id'

/-- C9: each partial-field mutator changes only its named field of the
one addressed record, leaves every other record and the order queue
unchanged, and is a no-op on the whole store when the id is absent
(detectable by a lookup still returning empty). -/
theorem C9_partial_mutators_frame (s : AppState) (id : Str) (st : JobStatus)
    (pr : ℚ) (msg : Str) :
    ((update_job_status s id st).job_queue = s.job_queue ∧
      ∀ id', get_job (update_job_status s id st) id' =
        if id' = id then (get_job s id).map (fun j => { j with status := st })
        else get_job s id') ∧
    ((update_job_progress s id pr).job_queue = s.job_queue ∧
      ∀ id', get_job (update_job_progress s id pr) id' =
        if id' = id then (get_job s id).map (fun j => { j with progress := pr })
        else get_job s id') ∧
    ((update_job_status_message s id msg).job_queue = s.job_queue ∧
      ∀ id', get_job (update_job_status_message s id msg) id' =
        if id' = id then (get_job s id).map (fun j => { j with status_message := some msg })
        else get_job s id') ∧
    (containsKey s.jobs id = false →
      update_job_status s id st = s ∧ update_job_progress s id pr = s ∧
        update_job_status_message s id msg = s) := by
  have habsent : containsKey s.jobs id = false → lookupJob s.jobs id = none := by
    intro h
    cases hl : lookupJob s.jobs id with
    | none => rfl
    | some j => rw [containsKey, hl] at h; simp at h
  refine ⟨⟨rfl, ?_⟩, ⟨rfl, ?_⟩, ⟨rfl, ?_⟩, ?_⟩
  · intro id'
    exact lookup_modifyJob s.jobs id _ id'
  · intro id'
    exact lookup_modifyJob s.jobs id _ id'
  · intro id'
    exact lookup_modifyJob s.jobs id _ id'
  · intro h
    have hl := habsent h
    refine ⟨?_, ?_, ?_⟩ <;>
      simp [update_job_status, update_job_progress, update_job_status_message,
        modifyJob_absent _ _ _ hl]

/-- Witness for C9 on the empty store: mutating an absent id leaves the
store unchanged. -/
theorem C9_witness :
    update_job_status emptyAppState cexIdA .Ready = emptyAppState ∧
    update_job_progress emptyAppState cexIdA 50 = emptyAppState ∧
    update_job_status_message emptyAppState cexIdA ("x".toList) = emptyAppState :=
  (C9_partial_mutators_frame emptyAppState cexIdA .Ready 50 ("x".toList)).2.2.2 (by decide)


/-! ## C6: clearing terminal jobs -/

theorem lookup_none_of_not_mem_keys (m : List (Str × ConversionJob)) (id : Str)
    (h : id ∉ m.map Prod.fst) : lookupJob m id = none := by
  induction m with
  | nil => rfl
  | cons kv rest ih =>
    obtain ⟨k, v⟩ := kv
    simp only [List.map_cons, List.mem_cons] at h
    push_neg at h
    have hk : ¬ (k = id) := fun hh => h.1 hh.symm
    simp only [lookupJob, if_neg hk]
    exact ih h.2

theorem lookup_of_mem_nodup (m : List (Str × ConversionJob)) (id : Str) (j : ConversionJob)
    (hnd : (m.map Prod.fst).Nodup) (hm : (id, j) ∈ m) : lookupJob m id = some j := by
  induction m with
  | nil => cases hm
  | cons kv rest ih =>
    obtain ⟨k, v⟩ := kv
    rcases List.mem_cons.mp hm with he | hm'
    · injection he with h1 h2
      subst h1
      subst h2
      simp [lookupJob]
    · have hk : k ≠ id := by
        rintro rfl
        exact (List.nodup_cons.mp hnd).1 (List.mem_map.mpr ⟨(k, j), hm', rfl⟩)
      simp only [lookupJob, if_neg hk]
      exact ih (List.nodup_cons.mp hnd).2 hm'

theorem keys_removeKey_sublist (m : List (Str × ConversionJob)) (id : Str) :
    List.Sublist ((removeKey m id).map Prod.fst) (m.map Prod.fst) := by
  induction m with
  | nil => simp [removeKey]
  | cons kv rest ih =>
    obtain ⟨k, v⟩ := kv
    by_cases hk : k = id
    · simp only [removeKey, if_pos hk, List.map_cons]
      exact List.Sublist.cons _ (List.Sublist.refl _)
    · simp only [removeKey, if_neg hk, List.map_cons]
      exact List.Sublist.cons₂ _ ih

theorem lookup_removeKey_nodup (m : List (Str × ConversionJob)) (id id' : Str)
    (hnd : (m.map Prod.fst).Nodup) :
    lookupJob (removeKey m id) id' = if id' = id then none else lookupJob m id' := by
  induction m with
  | nil => simp [removeKey, lookupJob]
  | cons kv rest ih =>
    obtain ⟨k, v⟩ := kv
    by_cases hk : k = id
    · subst hk
      simp only [removeKey, if_pos rfl]
      by_cases h : id' = k
      · subst h
        rw [if_pos rfl]
        exact lookup_none_of_not_mem_keys rest id' (List.nodup_cons.mp hnd).1
      · rw [if_neg h]
        have hk2 : ¬ (k = id') := fun hh => h hh.symm
        simp [lookupJob, hk2]
    · simp only [removeKey, if_neg hk, lookupJob]
      rw [ih (List.nodup_cons.mp hnd).2]
      by_cases h1 : k = id'
      · by_cases h2 : id' = id
        · exact absurd (h1.trans h2) hk
        · simp [h1, h2]
      · by_cases h2 : id' = id
        · simp [h1, h2, hk]
        · simp [h1, h2]

theorem lookup_removeKeys_nodup (ids : List Str) (m : List (Str × ConversionJob)) (id' : Str)
    (hnd : (m.map Prod.fst).Nodup) :
    lookupJob (removeKeys m ids) id' = if id' ∈ ids then none else lookupJob m id' := by
  induction ids generalizing m with
  | nil => simp [removeKeys]
  | cons id rest ih =>
    have hstep : removeKeys m (id :: rest) = removeKeys (removeKey m id) rest := rfl
    rw [hstep, ih (removeKey m id)
      ((keys_removeKey_sublist m id).nodup hnd)]
    rw [lookup_removeKey_nodup m id id' hnd]
    by_cases h1 : id' ∈ rest
    · simp [h1]
    · by_cases h2 : id' = id <;> simp [h1, h2]

theorem mem_clearPhaseCollect (s : AppState) (id : Str)
    (hnd : (s.jobs.map Prod.fst).Nodup) :
    id ∈ clearPhaseCollect s ↔
      ∃ j, lookupJob s.jobs id = some j ∧ isTerminal j.status = true := by
  rw [clearPhaseCollect]
  constructor
  · intro h
    obtain ⟨kv, hkv, he⟩ := List.mem_filterMap.mp h
    by_cases ht : isTerminal kv.2.status = true
    · rw [if_pos ht] at he
      obtain rfl : kv.1 = id := by simpa using he
      exact ⟨kv.2, lookup_of_mem_nodup s.jobs kv.1 kv.2 hnd hkv, ht⟩
    · rw [if_neg ht] at he
      cases he
  · rintro ⟨j, hl, ht⟩
    exact List.mem_filterMap.mpr ⟨(id, j), lookup_mem _ _ _ hl, by rw [if_pos ht]⟩

/-- C6 (amended): `clear_completed_jobs` does, in its final state,
remove every Completed/Failed job from both the record map and the order
queue and leave every other job in both — but it is not atomic with
respect to concurrent readers: the map and the queue are pruned in
separate lock scopes, so between them a reader can observe a cleared job
still present in the queue while already absent from the map (see the
counterexample). -/
theorem C6_clear_terminal_final_state (s : AppState)
    (hnd : (s.jobs.map Prod.fst).Nodup) :
    (∀ id, lookupJob (clear_completed_jobs s).jobs id =
      match lookupJob s.jobs id with
      | some j => if isTerminal j.status then none else some j
      | none => none) ∧
    (clear_completed_jobs s).job_queue =
      s.job_queue.filter (fun id =>
        match lookupJob s.jobs id with
        | some j => !(isTerminal j.status)
        | none => true) := by
  have hjobs : (clear_completed_jobs s).jobs = removeKeys s.jobs (clearPhaseCollect s) := rfl
  have hqueue : (clear_completed_jobs s).job_queue =
      s.job_queue.filter (fun id => !((clearPhaseCollect s).contains id)) := rfl
  constructor
  · intro id
    rw [hjobs, lookup_removeKeys_nodup _ _ _ hnd]
    cases hl : lookupJob s.jobs id with
    | none =>
      have : id ∉ clearPhaseCollect s := by
        rw [mem_clearPhaseCollect s id hnd]
        rintro ⟨j, hj, -⟩
        rw [hl] at hj
        cases hj
      simp [this]
    | some j =>
      by_cases ht : isTerminal j.status = true
      · have : id ∈ clearPhaseCollect s := (mem_clearPhaseCollect s id hnd).mpr ⟨j, hl, ht⟩
        simp [this, ht]
      · have : id ∉ clearPhaseCollect s := by
          rw [mem_clearPhaseCollect s id hnd]
          rintro ⟨j', hj', ht'⟩
          rw [hl] at hj'
          obtain rfl : j = j' := by simpa using hj'
          exact ht ht'
        simp [this, ht]
  · rw [hqueue]
    apply List.filter_congr
    intro x hx
    cases hl : lookupJob s.jobs x with
    | none =>
      have hnm : x ∉ clearPhaseCollect s := by
        rw [mem_clearPhaseCollect s x hnd]
        rintro ⟨j, hj, -⟩
        rw [hl] at hj
        cases hj
      simpa [hl] using hnm
    | some j =>
      by_cases ht : isTerminal j.status = true
      · have hm : x ∈ clearPhaseCollect s := (mem_clearPhaseCollect s x hnd).mpr ⟨j, hl, ht⟩
        simpa [hl, ht] using hm
      · have hnm : x ∉ clearPhaseCollect s := by
          rw [mem_clearPhaseCollect s x hnd]
          rintro ⟨j', hj', ht'⟩
          rw [hl] at hj'
          obtain rfl : j = j' := by simpa using hj'
          exact ht ht'
        simpa [hl, ht] using hnm

/-- A store holding a single Completed job a. -/
def c6Store : AppState :=
  { jobs := [(cexIdA, { cexJobA with status := .Completed })], job_queue := [cexIdA] }

/-- The store as observed between the second and third lock scopes of
`clear_completed_jobs`: the map has been pruned, the queue has not. -/
def c6Mid : AppState := clearPhaseMap c6Store (clearPhaseCollect c6Store)

/-- C6 counterexample: `clear_completed_jobs` collects ids, prunes the
map, and prunes the queue in three separate lock scopes
(state.rs:283-308).  In the state between the map prune and the queue
prune, the cleared job a is still present in the order queue while its
record is already absent from the map — precisely the torn view the
claim says a reader must never observe. -/
theorem C6_counterexample :
    cexIdA ∈ c6Mid.job_queue ∧ lookupJob c6Mid.jobs cexIdA = none := by
  constructor
  · decide
  · decide

/-- Witness for C6's amended theorem on the one-Completed-job store. -/
theorem C6_witness :
    lookupJob (clear_completed_jobs c6Store).jobs cexIdA =
      (match lookupJob c6Store.jobs cexIdA with
        | some j => if isTerminal j.status then none else some j
        | none => none) :=
  (C6_clear_terminal_final_state c6Store (by decide)).1 cexIdA


/-! ## C5 and C7: the conversion runner's stream loop -/

/-- Projection selecting stderr lines from the event stream. -/
def stderrLineOf : StreamLine → Option Str
  | .stderr l => some l
  | .stdout _ => none

theorem processLine_stdout_lastError (d : ℚ) (st : RunState) (l : Str) :
    (processLine d st (.stdout l)).lastErrorLine = st.lastErrorLine := by
  cases hpl : parse_progress_line l <;> simp [processLine, hpl]

theorem processLine_stderr_lastError (d : ℚ) (st : RunState) (l : Str) :
    (processLine d st (.stderr l)).lastErrorLine =
      if stderrRetains l then l else st.lastErrorLine := by
  cases hpl : parse_progress_line l with
  | some info => by_cases hr : stderrRetains l <;> simp [processLine, hpl, hr]
  | none =>
    cases hpt : parse_progress_time l <;>
      by_cases hr : stderrRetains l <;> simp [processLine, hpl, hpt, hr]

theorem runAux_lastError (d : ℚ) (evs : List StreamLine) (st : RunState) :
    (evs.foldl (processLine d) st).lastErrorLine =
      ((evs.filterMap stderrLineOf).filter stderrRetains).getLastD st.lastErrorLine := by
  induction evs generalizing st with
  | nil => simp
  | cons ev rest ih =>
    rw [List.foldl_cons, ih]
    cases ev with
    | stdout l =>
      simp [stderrLineOf, processLine_stdout_lastError]
    | stderr l =>
      by_cases hr : stderrRetains l
      · simp only [List.filterMap_cons, stderrLineOf]
        rw [List.filter_cons, if_pos (by simpa using hr), List.getLastD_cons,
          processLine_stderr_lastError, if_pos hr]
      · simp only [List.filterMap_cons, stderrLineOf]
        rw [List.filter_cons, if_neg (by simpa using hr),
          processLine_stderr_lastError, if_neg hr]

/-- The case-insensitive retention condition the claim describes: the
line contains "error" or "invalid" after lowercasing. -/
def retainsSpecCI (l : Str) : Bool :=
  containsSub (l.map Char.toLower) ("error".toList) ||
    containsSub (l.map Char.toLower) ("invalid".toList)

/-- C7 counterexample: the stderr line "invalid argument" matches the
claimed case-insensitive condition, but the code's test
`contains("Error") || contains("error") || contains("Invalid")`
(ffmpeg.rs:285) is case-sensitive and misses lowercase "invalid", so
after draining the stream the retained diagnostic candidate is still
the initial empty string, not this line. -/
theorem C7_counterexample :
    retainsSpecCI ("invalid argument".toList) = true ∧
    stderrRetains ("invalid argument".toList) = false ∧
    (runStreams 0 [.stderr ("invalid argument".toList)]).lastErrorLine = [] := by
  refine ⟨by decide, by decide, by decide⟩

/-- C7 (amended): during a run the retained diagnostic candidate is
overwritten by a stderr line exactly when that line contains `"Error"`,
`"error"` or `"Invalid"` as a case-sensitive substring (so `"ERROR"`,
`"invalid"`, `"INVALID"` do not match); after the streams are drained
the candidate is the most recent such line (or the initial empty string
when none occurred). -/
theorem C7_diagnostic_retention :
    (∀ (d : ℚ) (st : RunState) (l : Str),
      (processLine d st (.stderr l)).lastErrorLine =
        if stderrRetains l then l else st.lastErrorLine) ∧
    (∀ (d : ℚ) (evs : List StreamLine),
      (runStreams d evs).lastErrorLine =
        ((evs.filterMap stderrLineOf).filter stderrRetains).getLastD []) := by
  constructor
  · exact processLine_stderr_lastError
  · intro d evs
    exact runAux_lastError d evs ⟨[], []⟩

theorem computeProgress_le_100 (d ct : ℚ) : computeProgress d ct ≤ 100 := by
  rw [computeProgress]
  split_ifs with h
  · exact min_le_right _ _
  · norm_num

theorem emitted_le_100 (d : ℚ) (evs : List StreamLine) (st : RunState)
    (hst : ∀ p ∈ st.emitted, p ≤ 100) :
    ∀ p ∈ (evs.foldl (processLine d) st).emitted, p ≤ 100 := by
  induction evs generalizing st with
  | nil => simpa using hst
  | cons ev rest ih =>
    rw [List.foldl_cons]
    apply ih
    cases ev with
    | stdout l =>
      cases hpl : parse_progress_line l with
      | none => simpa [processLine, hpl] using hst
      | some info =>
        intro p hp
        simp only [processLine, hpl, List.mem_append] at hp
        rcases hp with hp | hp
        · exact hst p hp
        · simp only [List.mem_singleton] at hp
          subst hp
          exact computeProgress_le_100 d _
    | stderr l =>
      cases hpl : parse_progress_line l with
      | some info =>
        intro p hp
        by_cases hr : stderrRetains l <;>
          simp only [processLine, hpl, hr, if_true, if_false, List.mem_append] at hp <;>
          rcases hp with hp | hp <;>
          first
            | exact hst p hp
            | (simp only [List.mem_singleton] at hp; subst hp; exact computeProgress_le_100 d _)
      | none =>
        cases hpt : parse_progress_time l with
        | some ct =>
          intro p hp
          by_cases hr : stderrRetains l <;>
            simp only [processLine, hpl, hpt, hr, if_true, if_false, List.mem_append] at hp <;>
            rcases hp with hp | hp <;>
            first
              | exact hst p hp
              | (simp only [List.mem_singleton] at hp; subst hp; exact computeProgress_le_100 d _)
        | none =>
          by_cases hr : stderrRetains l <;>
            simpa [processLine, hpl, hpt, hr] using hst

/-- C5: the percent handed to the progress callback is
`min(current_time / duration * 100, 100)` when the job's duration is
known and positive, `0` when it is unknown (`unwrap_or(0.0)`) or
non-positive; for duration 100 and current time 150 the computed percent
is exactly 100; and on any interleaving of the two line grammars every
emitted percent is at most 100. -/
theorem C5_progress_percent :
    (∀ d ct : ℚ, 0 < d → computeProgress d ct = min (ct / d * 100) 100) ∧
    (∀ d ct : ℚ, d ≤ 0 → computeProgress d ct = 0) ∧
    effectiveDuration none = 0 ∧
    (∀ q : ℚ, effectiveDuration (some q) = q) ∧
    computeProgress 100 150 = 100 ∧
    (∀ (d : ℚ) (evs : List StreamLine),
      ((runStreams d evs).emitted.all (fun p => decide (p ≤ 100))) = true) := by
  refine ⟨?_, ?_, rfl, fun q => rfl, ?_, ?_⟩
  · intro d ct h
    rw [computeProgress, if_pos h]
  · intro d ct h
    rw [computeProgress, if_neg (not_lt.mpr h)]
  · norm_num [computeProgress]
  · intro d evs
    rw [List.all_eq_true]
    intro p hp
    rw [decide_eq_true_eq]
    exact emitted_le_100 d evs ⟨[], []⟩ (by simp) p hp

/-- Witness for C5 at duration 100 / current time 150 (positive case)
and duration -5 (non-positive case). -/
theorem C5_witness :
    computeProgress 100 150 = min (150 / 100 * 100) 100 ∧ computeProgress (-5) 7 = 0 :=
  ⟨C5_progress_percent.1 100 150 (by norm_num), C5_progress_percent.2.1 (-5) 7 (by norm_num)⟩


/-! ## C4 and C10: the time grammar and its interaction with the two
line grammars -/

theorem parseDecimal_eval {s : Str} {neg : Bool} {ip fp : Str}
    (h : parseDecimalRaw s = some (neg, ip, fp)) :
    parseDecimal s = some ((if neg then -1 else 1) *
      ((digitsToNat ip : ℚ) + (digitsToNat fp : ℚ) / (10 : ℚ) ^ fp.length)) := by
  simp [parseDecimal, h, decimalValue]

theorem parse_time_eval {s p0 p1 p2 : Str} {q0 q1 q2 : ℚ}
    (hs : splitOn s ':' = [p0, p1, p2])
    (h0 : parseDecimal p0 = some q0) (h1 : parseDecimal p1 = some q1)
    (h2 : parseDecimal p2 = some q2) :
    parse_time_to_seconds s = .ok (q0 * 3600 + q1 * 60 + q2) := by
  simp [parse_time_to_seconds, hs, h0, h1, h2]

theorem takeWhile_all_eq_self (l : Str) (p : Char → Bool)
    (h : ∀ c ∈ l, p c = true) : l.takeWhile p = l := by
  induction l with
  | nil => rfl
  | cons c cs ih =>
    rw [List.takeWhile_cons, if_pos (h c (List.mem_cons_self _ _))]
    rw [ih (fun c hc => h c (List.mem_cons_of_mem _ hc))]

theorem parseDecimalBody_chars (neg : Bool) (r1 : Str) (r : Bool × Str × Str)
    (h : parseDecimalBody neg r1 = some r) :
    ∀ c ∈ r1, c.isDigit = true ∨ c = '.' := by
  intro c hc
  rw [parseDecimalBody] at h
  cases hdw : r1.dropWhile Char.isDigit with
  | nil =>
    left
    exact List.dropWhile_eq_nil_iff.mp hdw c hc
  | cons c2 r3 =>
    simp only [hdw] at h
    by_cases hdot : c2 = '.'
    · subst hdot
      rw [if_pos rfl] at h
      by_cases hg : ((r3.dropWhile Char.isDigit).isEmpty &&
          !((r1.takeWhile Char.isDigit).isEmpty && (r3.takeWhile Char.isDigit).isEmpty)) = true
      · have hr4 : r3.dropWhile Char.isDigit = [] := by
          have hg1 := (Bool.and_eq_true _ _ |>.mp hg).1
          simpa [List.isEmpty_iff] using hg1
        have hr3digits : ∀ a ∈ r3, Char.isDigit a = true :=
          List.dropWhile_eq_nil_iff.mp hr4
        have hsplit := List.takeWhile_append_dropWhile Char.isDigit r1
        rw [hdw] at hsplit
        rw [← hsplit] at hc
        rcases List.mem_append.mp hc with hc | hc
        · left; exact List.mem_takeWhile_imp hc
        · rcases List.mem_cons.mp hc with rfl | hc
          · right; rfl
          · left; exact hr3digits c hc
      · rw [if_neg hg] at h
        cases h
    · rw [if_neg hdot] at h
      cases h

theorem parseDecimalRaw_nil : parseDecimalRaw ([] : Str) = none := rfl

theorem parseDecimalRaw_chars (s : Str) (r : Bool × Str × Str)
    (h : parseDecimalRaw s = some r) :
    ∀ c ∈ s, c.isDigit = true ∨ c = '.' ∨ c = '+' ∨ c = '-' := by
  cases s with
  | nil => intro c hc; cases hc
  | cons c0 cs =>
    rw [parseDecimalRaw] at h
    by_cases hp : c0 = '+'
    · subst hp
      rw [if_pos rfl] at h
      intro c hc
      rcases List.mem_cons.mp hc with rfl | hc
      · right; right; left; rfl
      · rcases parseDecimalBody_chars _ _ _ h c hc with hd | hd
        · left; exact hd
        · right; left; exact hd
    · rw [if_neg hp] at h
      by_cases hm : c0 = '-'
      · subst hm
        rw [if_pos rfl] at h
        intro c hc
        rcases List.mem_cons.mp hc with rfl | hc
        · right; right; right; rfl
        · rcases parseDecimalBody_chars _ _ _ h c hc with hd | hd
          · left; exact hd
          · right; left; exact hd
      · rw [if_neg hm] at h
        intro c hc
        rcases parseDecimalBody_chars _ _ _ h c hc with hd | hd
        · left; exact hd
        · right; left; exact hd

theorem parseDecimal_chars (s : Str) (q : ℚ) (h : parseDecimal s = some q) :
    ∀ c ∈ s, c.isDigit = true ∨ c = '.' ∨ c = '+' ∨ c = '-' := by
  rw [parseDecimal] at h
  obtain ⟨r, hr, -⟩ := Option.map_eq_some'.mp h
  exact parseDecimalRaw_chars s r hr

theorem parseDecimal_ne_nil (q : ℚ) (h : parseDecimal ([] : Str) = some q) : False := by
  rw [parseDecimal, parseDecimalRaw_nil] at h
  cases h

/-- Joins components back with the separator; inverse of `splitOn`. -/
def joinSep (sep : Char) : List Str → Str
  | [] => []
  | [p] => p
  | p :: ps => p ++ sep :: joinSep sep ps

theorem splitOnAux_ne_nil (sep : Char) (s acc : Str) : splitOnAux sep s acc ≠ [] := by
  induction s generalizing acc with
  | nil => simp [splitOnAux]
  | cons c cs ih =>
    rw [splitOnAux]
    by_cases hc : c = sep
    · rw [if_pos hc]; simp
    · rw [if_neg hc]; exact ih _

theorem joinSep_splitOnAux (sep : Char) (s acc : Str) :
    joinSep sep (splitOnAux sep s acc) = acc.reverse ++ s := by
  induction s generalizing acc with
  | nil => simp [splitOnAux, joinSep]
  | cons c cs ih =>
    rw [splitOnAux]
    by_cases hc : c = sep
    · rw [if_pos hc]
      obtain ⟨x, xs, hxx⟩ : ∃ x xs, splitOnAux sep cs [] = x :: xs := by
        cases hx : splitOnAux sep cs [] with
        | nil => exact absurd hx (splitOnAux_ne_nil sep cs [])
        | cons x xs => exact ⟨x, xs, rfl⟩
      have ihcs := ih ([] : Str)
      rw [hxx] at ihcs ⊢
      simp only [List.reverse_nil, List.nil_append] at ihcs
      simp [joinSep, ihcs, hc]
    · rw [if_neg hc, ih]
      simp

theorem splitOn_three (sep : Char) (s p0 p1 p2 : Str)
    (h : splitOn s sep = [p0, p1, p2]) : s = p0 ++ sep :: (p1 ++ sep :: p2) := by
  have hj := joinSep_splitOnAux sep s []
  rw [splitOn] at h
  rw [h] at hj
  simpa [joinSep] using hj.symm

/-- Character inventory of any string the time grammar accepts: digits,
dot, signs and colons only. -/
theorem parse_time_chars (t : Str) (v : ℚ) (h : parse_time_to_seconds t = .ok v) :
    ∀ c ∈ t, c.isDigit = true ∨ c = '.' ∨ c = '+' ∨ c = '-' ∨ c = ':' := by
  rcases hs : splitOn t ':' with _ | ⟨p0, _ | ⟨p1, _ | ⟨p2, _ | ⟨p3, rest⟩⟩⟩⟩ <;>
    simp only [parse_time_to_seconds, hs] at h
  case cons.cons.cons.nil =>
    cases hq0 : parseDecimal p0 with
    | none => rw [hq0] at h; cases h
    | some q0 =>
      rw [hq0] at h
      cases hq1 : parseDecimal p1 with
      | none => rw [hq1] at h; cases h
      | some q1 =>
        rw [hq1] at h
        cases hq2 : parseDecimal p2 with
        | none => rw [hq2] at h; cases h
        | some q2 =>
          have ht := splitOn_three ':' t p0 p1 p2 hs
          intro c hc
          rw [ht] at hc
          have step : ∀ p : Str, (∀ a ∈ p, a.isDigit = true ∨ a = '.' ∨ a = '+' ∨ a = '-') →
              c ∈ p → c.isDigit = true ∨ c = '.' ∨ c = '+' ∨ c = '-' ∨ c = ':' := by
            intro p hp hcp
            rcases hp c hcp with hd | hd | hd | hd
            · left; exact hd
            · right; left; exact hd
            · right; right; left; exact hd
            · right; right; right; left; exact hd
          rcases List.mem_append.mp hc with hc | hc
          · exact step p0 (parseDecimal_chars p0 q0 hq0) hc
          rcases List.mem_cons.mp hc with rfl | hc
          · right; right; right; right; rfl
          rcases List.mem_append.mp hc with hc | hc
          · exact step p1 (parseDecimal_chars p1 q1 hq1) hc
          rcases List.mem_cons.mp hc with rfl | hc
          · right; right; right; right; rfl
          · exact step p2 (parseDecimal_chars p2 q2 hq2) hc
  all_goals cases h

theorem findSub_eq_none_of_head_notMem (s : Str) (c0 : Char) (ps : Str) (h : c0 ∉ s) :
    findSub s (c0 :: ps) = none := by
  induction s with
  | nil => simp [findSub]
  | cons c cs ih =>
    have hne : (c == c0) = false := by
      simp only [beq_eq_false_iff_ne]
      rintro rfl
      exact h (List.mem_cons_self _ _)
    rw [findSub, if_neg (by simp [startsWith, hne]), ih (fun hm => h (List.mem_cons_of_mem _ hm))]
    rfl


/-- C4: `parse_time_to_seconds` succeeds exactly on strings with exactly
three colon-separated decimal components, returning
`H*3600 + M*60 + S`; hours may exceed two digits
(`"100:00:00"` gives 360000); `"01:23:45.67"` gives 5025.67; a wrong
component count or a non-numeric component returns an error value (never
a crash). -/
theorem C4_time_grammar :
    (∀ (s : Str) (v : ℚ), parse_time_to_seconds s = .ok v ↔
      ∃ p0 p1 p2 : Str, ∃ q0 q1 q2 : ℚ, splitOn s ':' = [p0, p1, p2] ∧
        parseDecimal p0 = some q0 ∧ parseDecimal p1 = some q1 ∧
        parseDecimal p2 = some q2 ∧ v = q0 * 3600 + q1 * 60 + q2) ∧
    parse_time_to_seconds ("01:23:45.67".toList) = .ok (5025.67 : ℚ) ∧
    parse_time_to_seconds ("100:00:00".toList) = .ok (360000 : ℚ) ∧
    parse_time_to_seconds ("12:34".toList) =
      .error ("Invalid time format: ".toList ++ "12:34".toList) ∧
    parse_time_to_seconds ("aa:bb:cc".toList) = .error ("Invalid hours".toList) ∧
    parse_time_to_seconds ("1:2:3:4".toList) =
      .error ("Invalid time format: ".toList ++ "1:2:3:4".toList) := by
  refine ⟨?_, ?_, ?_, rfl, rfl, rfl⟩
  · intro s v
    constructor
    · intro h
      rcases hs : splitOn s ':' with _ | ⟨p0, _ | ⟨p1, _ | ⟨p2, _ | ⟨p3, rest⟩⟩⟩⟩ <;>
        simp only [parse_time_to_seconds, hs] at h
      case cons.cons.cons.nil =>
        cases hq0 : parseDecimal p0 with
        | none => rw [hq0] at h; cases h
        | some q0 =>
          rw [hq0] at h
          cases hq1 : parseDecimal p1 with
          | none => rw [hq1] at h; cases h
          | some q1 =>
            rw [hq1] at h
            cases hq2 : parseDecimal p2 with
            | none => rw [hq2] at h; cases h
            | some q2 =>
              rw [hq2] at h
              injection h with hv
              exact ⟨p0, p1, p2, q0, q1, q2, rfl, hq0, hq1, hq2, hv.symm⟩
      all_goals cases h
    · rintro ⟨p0, p1, p2, q0, q1, q2, hs, h0, h1, h2, rfl⟩
      exact parse_time_eval hs h0 h1 h2
  · have e0 := @parseDecimal_eval ['0', '1'] false ['0', '1'] [] (by decide)
    have e1 := @parseDecimal_eval ['2', '3'] false ['2', '3'] [] (by decide)
    have e2 := @parseDecimal_eval ['4', '5', '.', '6', '7'] false ['4', '5'] ['6', '7'] (by decide)
    simp only [show digitsToNat ['0', '1'] = 1 from by decide,
      show digitsToNat ['2', '3'] = 23 from by decide,
      show digitsToNat ['4', '5'] = 45 from by decide,
      show digitsToNat ['6', '7'] = 67 from by decide,
      show digitsToNat ([] : Str) = 0 from by decide] at e0 e1 e2
    rw [show ("01:23:45.67".toList : Str) = ['0', '1', ':', '2', '3', ':', '4', '5', '.', '6', '7']
      from rfl]
    rw [parse_time_eval (by decide) e0 e1 e2]
    norm_num
  · have e0 := @parseDecimal_eval ['1', '0', '0'] false ['1', '0', '0'] [] (by decide)
    have e1 := @parseDecimal_eval ['0', '0'] false ['0', '0'] [] (by decide)
    simp only [show digitsToNat ['1', '0', '0'] = 100 from by decide,
      show digitsToNat ['0', '0'] = 0 from by decide,
      show digitsToNat ([] : Str) = 0 from by decide] at e0 e1
    rw [show ("100:00:00".toList : Str) = ['1', '0', '0', ':', '0', '0', ':', '0', '0'] from rfl]
    rw [parse_time_eval (by decide) e0 e1 e1]
    norm_num

/-- C10: a machine-style `-progress` line, `"out_time="` followed by a
valid whitespace-free time string, is accepted by the human-readable
grammar too — `"out_time="` contains the substring `"time="`, so
`parse_progress_line` parses it and reports the same `time_seconds`
value that `parse_progress_time` extracts, instead of returning "no
progress". -/
theorem C10_out_time_accepted_by_both_grammars (t : Str) (v : ℚ)
    (hok : parse_time_to_seconds t = .ok v)
    (hw : t.all (fun c => !c.isWhitespace) = true) :
    parse_progress_time ("out_time=".toList ++ t) = some v ∧
    parse_progress_line ("out_time=".toList ++ t) =
      some ⟨v, none, none, none, none, none⟩ := by
  have hchars := parse_time_chars t v hok
  have hnotmem : ∀ c : Char, c.isDigit = false → c ≠ '.' → c ≠ '+' → c ≠ '-' → c ≠ ':' →
      c ∉ t := by
    intro c hd h1 h2 h3 h4 hc
    rcases hchars c hc with h | h | h | h | h <;> simp_all
  have hsw : startsWith t ("out_time=".toList) = false := by
    cases t with
    | nil => rfl
    | cons c cs =>
      have honotmem : 'o' ∉ (c :: cs) :=
        hnotmem 'o' (by decide) (by decide) (by decide) (by decide) (by decide)
      have hco : c ≠ 'o' := fun he => honotmem (he ▸ List.mem_cons_self c cs)
      simp [startsWith, hco]
  have hfind : findSub ("out_time=".toList ++ t) ("time=".toList) = some 4 := by
    simp [findSub, startsWith]
  have hnone : ∀ (c0 : Char) (ps : Str), c0 ∉ ("out_time=".toList : Str) →
      c0.isDigit = false → c0 ≠ '.' → c0 ≠ '+' → c0 ≠ '-' → c0 ≠ ':' →
      findSub ("out_time=".toList ++ t) (c0 :: ps) = none := by
    intro c0 ps hlit hd h1 h2 h3 h4
    apply findSub_eq_none_of_head_notMem
    rw [List.mem_append]
    rintro (h | h)
    · exact hlit h
    · exact hnotmem c0 hd h1 h2 h3 h4 h
  have htake : t.takeWhile (fun c => !c.isWhitespace) = t :=
    takeWhile_all_eq_self t _ (List.all_eq_true.mp hw)
  constructor
  · rw [parse_progress_time, if_pos (by simp [startsWith])]
    have hlen : (("out_time=".toList ++ t : Str)).length = t.length + 9 := by
      simp [List.length_append]
    have hstep1 : trimStartMatchesAux (t.length + 9) ("out_time=".toList ++ t)
        ("out_time=".toList) = trimStartMatchesAux (t.length + 8) t ("out_time=".toList) := by
      rw [trimStartMatchesAux]
      simp [startsWith]
    have hstep2 : trimStartMatchesAux (t.length + 8) t ("out_time=".toList) = t := by
      have hsw2 : startsWith t ['o', 'u', 't', '_', 't', 'i', 'm', 'e', '='] = false := hsw
      rw [trimStartMatchesAux]
      simp [hsw2]
    rw [trimStartMatches, hlen, hstep1, hstep2, hok]
    rfl
  · have hframe : findSub ("out_time=".toList ++ t) ("frame=".toList) = none :=
      hnone 'f' _ (by decide) (by decide) (by decide) (by decide) (by decide) (by decide)
    have hfps : findSub ("out_time=".toList ++ t) ("fps=".toList) = none :=
      hnone 'f' _ (by decide) (by decide) (by decide) (by decide) (by decide) (by decide)
    have hsize : findSub ("out_time=".toList ++ t) ("size=".toList) = none :=
      hnone 's' _ (by decide) (by decide) (by decide) (by decide) (by decide) (by decide)
    have hbit : findSub ("out_time=".toList ++ t) ("bitrate=".toList) = none :=
      hnone 'b' _ (by decide) (by decide) (by decide) (by decide) (by decide) (by decide)
    have hspeed : findSub ("out_time=".toList ++ t) ("speed=".toList) = none :=
      hnone 's' _ (by decide) (by decide) (by decide) (by decide) (by decide) (by decide)
    have hcont : containsSub ("out_time=".toList ++ t) ("time=".toList) = true := by
      rw [containsSub, hfind]
      rfl
    have hdrop : (("out_time=".toList ++ t : Str)).drop (4 + 5) = t := rfl
    rw [parse_progress_line]
    rw [if_neg (by rw [hcont]; simp)]
    rw [hfind]
    simp only [hdrop, htake, hok, hframe, hfps, hsize, hbit, hspeed]


/-- Witness for C10 at the machine-grammar line
`out_time=00:00:05.120000`: both parsers report the same time value. -/
theorem C10_witness :
    parse_progress_time ("out_time=00:00:05.120000".toList) =
      some (decimalValue (false, ['0', '0'], []) * 3600 +
        decimalValue (false, ['0', '0'], []) * 60 +
        decimalValue (false, ['0', '5'], ['1', '2', '0', '0', '0', '0'])) ∧
    parse_progress_line ("out_time=00:00:05.120000".toList) =
      some ⟨decimalValue (false, ['0', '0'], []) * 3600 +
        decimalValue (false, ['0', '0'], []) * 60 +
        decimalValue (false, ['0', '5'], ['1', '2', '0', '0', '0', '0']),
        none, none, none, none, none⟩ := by
  have hok : parse_time_to_seconds ("00:00:05.120000".toList) =
      .ok (decimalValue (false, ['0', '0'], []) * 3600 +
        decimalValue (false, ['0', '0'], []) * 60 +
        decimalValue (false, ['0', '5'], ['1', '2', '0', '0', '0', '0'])) :=
    @parse_time_eval ("00:00:05.120000".toList) ['0', '0'] ['0', '0']
      ['0', '5', '.', '1', '2', '0', '0', '0', '0']
      (decimalValue (false, ['0', '0'], [])) (decimalValue (false, ['0', '0'], []))
      (decimalValue (false, ['0', '5'], ['1', '2', '0', '0', '0', '0']))
      (by decide) rfl rfl rfl
  have h := C10_out_time_accepted_by_both_grammars ("00:00:05.120000".toList) _ hok (by decide)
  exact ⟨h.1, h.2⟩

end Transpoze
